import Mathlib

/-!
Verification of the `hash.psd8` instruction of the snarkVM bytecode VM
(`src/bytecode/src/function/instructions/hash/psd8.rs`).

The file embeds the instruction and its collaborators shallowly.  The
wrapper type `HashPsd8` (opcode, `parse` via the `map` combinator over
`UnaryOperation.parse`, `read_le` delegating to `UnaryOperation.read_le`)
is translated from the source file.  The collaborators that live outside
the provided source tree (the value model, field-flattening, the register
file, the `impl_poseidon_evaluate!` macro body, the Poseidon permutation,
and the shared unary-operation parser and byte codec) are modelled from
the specification, with each such definition marked in its doc comment.
-/

namespace Psd8

/-- Visibility classification of a value: Constant, Public or Private. -/
inductive Mode
  | Constant
  | Public
  | Private
  deriving DecidableEq, Repr

/-- Modelled from the spec: the combined visibility of several leaves is
Private if any leaf is Private, else Public if any leaf is Public, else
Constant (the least-constant-preserving join). -/
def Mode.join : Mode → Mode → Mode
  | Mode.Private, _ => Mode.Private
  | _, Mode.Private => Mode.Private
  | Mode.Public, _ => Mode.Public
  | _, Mode.Public => Mode.Public
  | Mode.Constant, Mode.Constant => Mode.Constant

/-- The fixed-width integer kinds of the literal type (i8..i128, u8..u128). -/
inductive IntKind
  | i8 | i16 | i32 | i64 | i128
  | u8 | u16 | u32 | u64 | u128
  deriving DecidableEq, Repr

/-- The scalar payload of a literal: one of the primitive kinds of the
value model (field element, integers, boolean, group element, address,
string, scalar-field element).  Field-domain payloads are represented as
natural numbers standing for canonical field elements. -/
inductive LiteralValue
  | address (s : String)
  | boolean (b : Bool)
  | field (x : Nat)
  | group (x : Nat)
  | integer (k : IntKind) (x : Nat)
  | scalar (x : Nat)
  | string (s : String)
  deriving DecidableEq, Repr

/-- A literal: a scalar payload together with its visibility tag. -/
structure Literal where
  value : LiteralValue
  mode : Mode
  deriving DecidableEq, Repr

/-- A `Value` is either a literal or a named composite of literals
(as in the source: `Value::Composite(Identifier, Vec<Literal>)`). -/
inductive Value
  | literal (l : Literal)
  | composite (name : String) (literals : List Literal)
  deriving DecidableEq, Repr

/-- Modelled from the spec: the canonical field-element encoding of a
scalar literal payload (`ToFields` is outside the provided source tree).
A field element flattens to itself; integer and scalar-field literals
flatten to the canonical field encoding of their numeric value; strings
flatten to the field encodings of their characters; boolean, address and
group kinds have no field encoding here and are rejected. -/
def literalToFields : LiteralValue → Option (List Nat)
  | LiteralValue.field x => some [x]
  | LiteralValue.integer _ x => some [x]
  | LiteralValue.scalar x => some [x]
  | LiteralValue.string s => some (s.data.map Char.toNat)
  | LiteralValue.address _ => none
  | LiteralValue.boolean _ => none
  | LiteralValue.group _ => none

/-- Modelled from the spec: flattening a list of sub-literals visits them
in declared order, concatenating their field encodings and joining their
visibilities; it fails if any sub-literal is not flattenable. -/
def literalsToFields : List Literal → Option (List Nat × Mode)
  | [] => some ([], Mode.Constant)
  | l :: rest =>
    match literalToFields l.value, literalsToFields rest with
    | some fs, some (fs2, m2) => some (fs ++ fs2, Mode.join l.mode m2)
    | _, _ => none

/-- Modelled from the spec: flattening a `Value` into an ordered field
sequence plus a combined visibility.  A literal flattens to its own
encoding with its own tag; a composite flattens its sub-literals in
order under the visibility join. -/
def Value.toFields : Value → Option (List Nat × Mode)
  | Value.literal l => (literalToFields l.value).map (fun fs => (fs, l.mode))
  | Value.composite _ ls => literalsToFields ls

/-- Modelled from the spec: the Poseidon permutation with input rate 8 is
a stateless external primitive; it carries no per-instance state, so it
is a zero-size capability value. -/
structure Poseidon8 where
  deriving DecidableEq, Repr

/-- Modelled from the spec: stateless construction of the hash functor. -/
def Poseidon8.new : Poseidon8 := {}

/-- Modelled from the spec: the hash function `F* -> F` of the external
Poseidon8 primitive.  The primitive itself is out of scope; the spec pins
its digest on exactly the scenario inputs (the flattening of `1field`,
of the composite `(1field, 2field)`, and of the string `"aaaaaaaa"`),
and it is otherwise an arbitrary deterministic function. -/
def Poseidon8.hash (_hasher : Poseidon8) (input : List Nat) : Nat :=
  if input = [1] then
    3999071741215241790607111275574824668617854796802626587041088136954841194555
  else if input = [1, 2] then
    2132636093982099992808836832692348220698310395516022520468979890154979376079
  else if input = "aaaaaaaa".data.map Char.toNat then
    4020837770720319542691472472080405581209506316726251354702740114046129734437
  else
    input.foldl (fun a x => a + x) 0

/-- The shared unary-operation core: one source register and one
destination register, referenced by their locators. -/
structure UnaryOperation where
  first : Nat
  destination : Nat
  deriving DecidableEq, Repr

/-- `HashPsd8`: the `Hash<P, Poseidon8>` instruction — a unary operation
paired with the stateless hash functor (from the source). -/
structure HashPsd8 where
  operation : UnaryOperation
  hasher : Poseidon8
  deriving DecidableEq, Repr

/-- The opcode of the instruction (from the source: `"hash.psd8"`). -/
def HashPsd8.opcode : String := "hash.psd8"

/-- Modelled from the spec: the register file maps register locators to
an optional `Value`; a register is either undefined or holds exactly one
value. -/
def Registers := Nat → Option Value

/-- Outcome of evaluating an instruction: either the updated register
file, or a fatal halt carrying a human-readable diagnostic. -/
inductive EvalResult
  | ok (registers : Registers)
  | halt (msg : String)

/-- Modelled from the spec: `evaluate(registers)` per the evaluation
contract (the `impl_poseidon_evaluate!` macro body is outside the
provided source tree):
1. load the value from the source register, halting if undefined;
2. flatten it, halting with the variant diagnostic (as asserted by the
   source tests: `Invalid 'hash.psd8' instruction`) if flattening
   rejects the scalar kind;
3. hash the field sequence;
4. wrap the digest as a field literal with the combined visibility;
5. write it to the destination register, halting if already defined. -/
def HashPsd8.evaluate (self : HashPsd8) (registers : Registers) : EvalResult :=
  match registers self.operation.first with
  | none => EvalResult.halt ("Failed to load register r" ++ toString self.operation.first)
  | some v =>
    match Value.toFields v with
    | none => EvalResult.halt ("Invalid '" ++ HashPsd8.opcode ++ "' instruction")
    | some (fields, mode) =>
      match registers self.operation.destination with
      | some _ =>
        EvalResult.halt ("Register r" ++ toString self.operation.destination ++ " is already set")
      | none =>
        EvalResult.ok (fun r =>
          if r = self.operation.destination then
            some (Value.literal ⟨LiteralValue.field (self.hasher.hash fields), mode⟩)
          else registers r)

/-- Observer: the value held by the destination register after a
successful evaluation (`none` when evaluation halts). -/
def HashPsd8.evaluateDigest (self : HashPsd8) (registers : Registers) : Option Value :=
  match self.evaluate registers with
  | EvalResult.ok out => out self.operation.destination
  | EvalResult.halt _ => none

/-! ## Byte-level codec

The shared unary-operation byte layout: the source register id and the
destination register id, little-endian (spec §6).  Register ids are
64-bit machine integers in the source, hence eight bytes each. -/

/-- Little-endian byte encoding of a natural number into `w` bytes. -/
def natToBytesLE : Nat → Nat → List Nat
  | 0, _ => []
  | w + 1, x => x % 256 :: natToBytesLE w (x / 256)

/-- Little-endian interpretation of a byte list as a natural number. -/
def bytesToNatLE : List Nat → Nat
  | [] => 0
  | b :: bs => b + 256 * bytesToNatLE bs

/-- Take exactly `w` bytes off the front of a byte stream. -/
def readBytes : Nat → List Nat → Option (List Nat × List Nat)
  | 0, bs => some ([], bs)
  | _ + 1, [] => none
  | w + 1, b :: bs => (readBytes w bs).map (fun p => (b :: p.1, p.2))

/-- Modelled from the spec: the byte decoder of the shared unary
operation — read the source register id then the destination register
id, each as eight little-endian bytes; fail if the stream is
truncated. -/
def UnaryOperation.readLe (bs : List Nat) : Option (UnaryOperation × List Nat) :=
  match readBytes 8 bs with
  | none => none
  | some (sb, bs1) =>
    match readBytes 8 bs1 with
    | none => none
    | some (db, bs2) => some (⟨bytesToNatLE sb, bytesToNatLE db⟩, bs2)

/-- Modelled from the spec: the byte encoder of the shared unary
operation, the exact inverse of `UnaryOperation.readLe`. -/
def UnaryOperation.writeLe (op : UnaryOperation) : List Nat :=
  natToBytesLE 8 op.first ++ natToBytesLE 8 op.destination

/-- `HashPsd8::read_le` (from the source): decode the shared unary
operation and reconstruct the stateless hash functor fresh via
`Poseidon8::new()`. -/
def HashPsd8.readLe (bs : List Nat) : Option (HashPsd8 × List Nat) :=
  (UnaryOperation.readLe bs).map (fun p => (⟨p.1, Poseidon8.new⟩, p.2))

/-- Modelled from the spec: the byte encoder of the instruction writes
the shared unary-operation layout (the hash functor carries no persisted
state, so nothing further is written). -/
def HashPsd8.writeLe (self : HashPsd8) : List Nat :=
  self.operation.writeLe

/-! ## Textual parsing

`HashPsd8::parse` (in the source) maps `UnaryOperation::parse`; the
shared unary-operation grammar `<src-register> into <dst-register>` and
the instruction-level grammar `<opcode> <operands> ;` live outside the
provided source tree and are modelled from the spec.  Parsers work on
`List Char` and return the residual input on success; a mismatch is a
recoverable `none`, never a halt. -/

/-- Split a character list into its longest digit prefix and the rest. -/
def spanDigits : List Char → List Char × List Char
  | [] => ([], [])
  | c :: cs =>
    if c.isDigit then
      let p := spanDigits cs
      (c :: p.1, p.2)
    else ([], c :: cs)

/-- The numeric value of a digit string (most significant digit first). -/
def digitsToNat (ds : List Char) : Nat :=
  ds.foldl (fun a c => 10 * a + (c.toNat - 48)) 0

/-- Parse a decimal numeral: at least one digit, maximal munch. -/
def parseDigits (cs : List Char) : Option (Nat × List Char) :=
  match spanDigits cs with
  | ([], _) => none
  | (d :: ds, rest) => some (digitsToNat (d :: ds), rest)

/-- Modelled from the spec: a register reference is `r` followed by a
decimal locator (e.g. `r0`, `r1`). -/
def parseRegister (cs : List Char) : Option (Nat × List Char) :=
  match cs with
  | 'r' :: rest => parseDigits rest
  | _ => none

/-- Expect a fixed token at the head of the input and drop it. -/
def parseToken : List Char → List Char → Option (List Char)
  | [], cs => some cs
  | _ :: _, [] => none
  | t :: ts, c :: cs => if c = t then parseToken ts cs else none

/-- Modelled from the spec: the shared unary-operation grammar
`<src-register> into <dst-register>` (the fixed token `into` between the
two register references). -/
def UnaryOperation.parse (cs : List Char) : Option (UnaryOperation × List Char) :=
  match parseRegister cs with
  | none => none
  | some (src, cs1) =>
    match parseToken " into ".data cs1 with
    | none => none
    | some cs2 =>
      match parseRegister cs2 with
      | none => none
      | some (dst, cs3) => some (⟨src, dst⟩, cs3)

/-- `HashPsd8::parse` (from the source): map `UnaryOperation.parse`,
constructing the hash functor fresh via `Poseidon8::new()`.  It does not
consume the opcode token. -/
def HashPsd8.parse (cs : List Char) : Option (HashPsd8 × List Char) :=
  (UnaryOperation.parse cs).map (fun p => (⟨p.1, Poseidon8.new⟩, p.2))

/-- The instruction-set variant for this opcode (the only one in scope). -/
inductive Instruction
  | hashPsd8 (h : HashPsd8)
  deriving DecidableEq, Repr

/-- Modelled from the spec: the instruction-level textual grammar
`<opcode> <operands> ;` — the opcode token and a space, then the
variant's own parser, then the mandatory terminating `;`. -/
def Instruction.parse (cs : List Char) : Option (Instruction × List Char) :=
  match parseToken (HashPsd8.opcode ++ " ").data cs with
  | none => none
  | some cs1 =>
    match HashPsd8.parse cs1 with
    | none => none
    | some (h, cs2) =>
      match cs2 with
      | ';' :: cs3 => some (Instruction.hashPsd8 h, cs3)
      | _ => none

/-- A register file holding a single value in register `r0`. -/
def singleRegs (v : Value) : Registers :=
  fun r => if r = 0 then some v else none

/-- The instruction `hash.psd8 r0 into r1`. -/
def inst01 : HashPsd8 := ⟨⟨0, 1⟩, Poseidon8.new⟩

example : inst01.evaluateDigest (singleRegs (Value.literal ⟨LiteralValue.field 1, Mode.Public⟩))
    = some (Value.literal ⟨LiteralValue.field
        3999071741215241790607111275574824668617854796802626587041088136954841194555,
        Mode.Public⟩) := by decide

/-! ## Lemmas about the byte codec -/

theorem bytesToNatLE_natToBytesLE (w x : Nat) :
    bytesToNatLE (natToBytesLE w x) = x % 256 ^ w := by
  induction w generalizing x with
  | zero => simp [natToBytesLE, bytesToNatLE, Nat.mod_one]
  | succ w ih =>
    simp only [natToBytesLE, bytesToNatLE, ih]
    rw [pow_succ', Nat.mod_mul]

theorem natToBytesLE_length (w x : Nat) : (natToBytesLE w x).length = w := by
  induction w generalizing x with
  | zero => rfl
  | succ w ih => simp [natToBytesLE, ih]

theorem natToBytesLE_lt (w x : Nat) : ∀ b ∈ natToBytesLE w x, b < 256 := by
  induction w generalizing x with
  | zero => intro b hb; simp [natToBytesLE] at hb
  | succ w ih =>
    intro b hb
    simp only [natToBytesLE, List.mem_cons] at hb
    rcases hb with h | h
    · omega
    · exact ih _ b h

theorem readBytes_append (l rest : List Nat) :
    readBytes l.length (l ++ rest) = some (l, rest) := by
  induction l with
  | nil => rfl
  | cons b bs ih => simp [readBytes, ih]

theorem readBytes_spec (w : Nat) (bs h t : List Nat)
    (hr : readBytes w bs = some (h, t)) : bs = h ++ t ∧ h.length = w := by
  induction w generalizing bs h with
  | zero =>
    simp only [readBytes, Option.some.injEq, Prod.mk.injEq] at hr
    simp [← hr.1, ← hr.2]
  | succ w ih =>
    match bs with
    | [] => simp [readBytes] at hr
    | b :: bs =>
      simp only [readBytes, Option.map_eq_some'] at hr
      obtain ⟨⟨h1, t1⟩, hr1, heq⟩ := hr
      injection heq with e1 e2
      subst e1; subst e2
      obtain ⟨rfl, hlen⟩ := ih bs h1 hr1
      simp [hlen]

theorem natToBytesLE_bytesToNatLE (h : List Nat)
    (hb : ∀ b ∈ h, b < 256) : natToBytesLE h.length (bytesToNatLE h) = h := by
  induction h with
  | nil => rfl
  | cons b bs ih =>
    have hblt : b < 256 := hb b (List.mem_cons_self b bs)
    simp only [List.length_cons, natToBytesLE, bytesToNatLE]
    have h1 : (b + 256 * bytesToNatLE bs) % 256 = b := by omega
    have h2 : (b + 256 * bytesToNatLE bs) / 256 = bytesToNatLE bs := by omega
    rw [h1, h2, ih (fun x hx => hb x (List.mem_cons_of_mem b hx))]

/-! ## Lemmas about the textual parsers -/

theorem parseToken_iff (ts cs rest : List Char) :
    parseToken ts cs = some rest ↔ cs = ts ++ rest := by
  induction ts generalizing cs with
  | nil => simp [parseToken]
  | cons t ts ih =>
    match cs with
    | [] => simp [parseToken]
    | c :: cs =>
      simp only [parseToken, List.cons_append, List.cons.injEq]
      by_cases hc : c = t
      · simp [hc, ih]
      · simp [hc]

theorem spanDigits_spec (cs ds rest : List Char)
    (h : spanDigits cs = (ds, rest)) :
    cs = ds ++ rest ∧ (∀ c ∈ ds, c.isDigit = true) ∧
      ∀ c, rest.head? = some c → c.isDigit = false := by
  induction cs generalizing ds rest with
  | nil =>
    injection h with e1 e2
    subst e1; subst e2
    simp
  | cons c cs ih =>
    simp only [spanDigits] at h
    by_cases hd : c.isDigit
    · rw [if_pos hd] at h
      injection h with e1 e2
      subst e1; subst e2
      obtain ⟨hcs, hds, hrest⟩ := ih (spanDigits cs).1 (spanDigits cs).2 rfl
      refine ⟨by simp [← hcs], ?_, hrest⟩
      intro x hx
      rcases List.mem_cons.mp hx with rfl | hx
      · exact hd
      · exact hds x hx
    · rw [if_neg hd] at h
      injection h with e1 e2
      subst e1; subst e2
      refine ⟨by simp, by simp, ?_⟩
      intro x hx
      injection hx with hx
      subst hx
      simpa using hd

theorem spanDigits_append (ds rest : List Char)
    (hds : ∀ c ∈ ds, c.isDigit = true)
    (hrest : ∀ c, rest.head? = some c → c.isDigit = false) :
    spanDigits (ds ++ rest) = (ds, rest) := by
  induction ds with
  | nil =>
    match rest with
    | [] => rfl
    | c :: cs =>
      have hc : c.isDigit = false := hrest c rfl
      simp [spanDigits, hc]
  | cons d ds ih =>
    have hd := hds d (List.mem_cons_self d ds)
    have ih2 := ih (fun c hc => hds c (List.mem_cons_of_mem d hc))
    simp [spanDigits, hd, ih2]

theorem parseDigits_sound (ds rest : List Char) (hne : ds ≠ [])
    (hds : ∀ c ∈ ds, c.isDigit = true)
    (hrest : ∀ c, rest.head? = some c → c.isDigit = false) :
    parseDigits (ds ++ rest) = some (digitsToNat ds, rest) := by
  match ds with
  | [] => exact absurd rfl hne
  | d :: ds =>
    have hspan := spanDigits_append (d :: ds) rest hds hrest
    rw [List.cons_append] at hspan
    simp [parseDigits, hspan]

theorem parseDigits_spec (cs : List Char) (n : Nat) (rest : List Char)
    (h : parseDigits cs = some (n, rest)) :
    ∃ ds, ds ≠ [] ∧ (∀ c ∈ ds, c.isDigit = true) ∧ cs = ds ++ rest ∧
      n = digitsToNat ds ∧ ∀ c, rest.head? = some c → c.isDigit = false := by
  simp only [parseDigits] at h
  rcases hs : spanDigits cs with ⟨ds, rest1⟩
  rw [hs] at h
  match ds, h with
  | d :: ds, h =>
    injection h with h1
    injection h1 with h2 h3
    rw [h3] at hs
    obtain ⟨hcs, hdig, hhead⟩ := spanDigits_spec cs (d :: ds) rest hs
    exact ⟨d :: ds, by simp, hdig, hcs, h2.symm, hhead⟩

theorem parseRegister_sound (ds rest : List Char) (hne : ds ≠ [])
    (hds : ∀ c ∈ ds, c.isDigit = true)
    (hrest : ∀ c, rest.head? = some c → c.isDigit = false) :
    parseRegister ('r' :: ds ++ rest) = some (digitsToNat ds, rest) := by
  simp [parseRegister, parseDigits_sound ds rest hne hds hrest]

theorem parseRegister_spec (cs : List Char) (n : Nat) (rest : List Char)
    (h : parseRegister cs = some (n, rest)) :
    ∃ ds, ds ≠ [] ∧ (∀ c ∈ ds, c.isDigit = true) ∧ cs = 'r' :: ds ++ rest ∧
      n = digitsToNat ds ∧ ∀ c, rest.head? = some c → c.isDigit = false := by
  simp only [parseRegister] at h
  split at h
  next cs1 =>
    obtain ⟨ds, hne, hdig, hcs, hn, hhead⟩ := parseDigits_spec cs1 n rest h
    exact ⟨ds, hne, hdig, by simp [hcs], hn, hhead⟩
  next hcs =>
    exact absurd h (by simp)

/-- A well-formed register-locator token: a nonempty run of digits. -/
def RegToken (ds : List Char) : Prop :=
  ds ≠ [] ∧ ∀ c ∈ ds, c.isDigit = true

theorem unaryOperation_parse_iff (cs rest : List Char) (op : UnaryOperation) :
    UnaryOperation.parse cs = some (op, rest) ↔
      ∃ sds dds, RegToken sds ∧ RegToken dds ∧
        cs = 'r' :: sds ++ (" into r".data ++ (dds ++ rest)) ∧
        op = ⟨digitsToNat sds, digitsToNat dds⟩ ∧
        ∀ c, rest.head? = some c → c.isDigit = false := by
  constructor
  · intro h
    simp only [UnaryOperation.parse] at h
    split at h
    · exact absurd h (by simp)
    next src cs1 h1 =>
    split at h
    · exact absurd h (by simp)
    next cs2 h2 =>
    split at h
    · exact absurd h (by simp)
    next dst cs3 h3 =>
    injection h with h4
    injection h4 with h5 h6
    rw [h6] at h3
    obtain ⟨sds, hsne, hsdig, hcs, hsrc, _⟩ := parseRegister_spec cs src cs1 h1
    obtain ⟨dds, hdne, hddig, hcs2, hdst, hhead⟩ := parseRegister_spec cs2 dst rest h3
    refine ⟨sds, dds, ⟨hsne, hsdig⟩, ⟨hdne, hddig⟩, ?_, ?_, hhead⟩
    · rw [hcs, (parseToken_iff _ _ _).mp h2, hcs2]
      simp
    · rw [← h5, hsrc, hdst]
  · rintro ⟨sds, dds, ⟨hsne, hsdig⟩, ⟨hdne, hddig⟩, rfl, rfl, hhead⟩
    have hgl : (" into r".data : List Char) = [' ', 'i', 'n', 't', 'o', ' ', 'r'] := rfl
    rw [hgl]
    have hs : parseRegister ('r' :: sds ++ ([' ', 'i', 'n', 't', 'o', ' ', 'r'] ++ (dds ++ rest)))
        = some (digitsToNat sds, [' ', 'i', 'n', 't', 'o', ' ', 'r'] ++ (dds ++ rest)) := by
      refine parseRegister_sound sds _ hsne hsdig ?_
      intro c hc
      have hh : (([' ', 'i', 'n', 't', 'o', ' ', 'r'] ++ (dds ++ rest)).head?)
          = some ' ' := rfl
      rw [hh] at hc
      injection hc with hc
      subst hc
      decide
    have ht : parseToken [' ', 'i', 'n', 't', 'o', ' ']
        ([' ', 'i', 'n', 't', 'o', ' ', 'r'] ++ (dds ++ rest))
        = some ('r' :: dds ++ rest) :=
      (parseToken_iff _ _ _).mpr rfl
    have hd : parseRegister ('r' :: dds ++ rest) = some (digitsToNat dds, rest) :=
      parseRegister_sound dds rest hdne hddig hhead
    simp only [UnaryOperation.parse, hs, ht, hd]

example : Instruction.parse "hash.psd8 r0 into r1;".data
    = some (Instruction.hashPsd8 inst01, []) := by decide

/-! ## Lemmas about the visibility join -/

theorem mode_join_private (a b : Mode) :
    Mode.join a b = Mode.Private ↔ a = Mode.Private ∨ b = Mode.Private := by
  cases a <;> cases b <;> decide

theorem mode_join_public (a b : Mode) :
    Mode.join a b = Mode.Public ↔
      (a = Mode.Public ∨ b = Mode.Public) ∧ a ≠ Mode.Private ∧ b ≠ Mode.Private := by
  cases a <;> cases b <;> decide

theorem mode_join_constant (a b : Mode) :
    Mode.join a b = Mode.Constant ↔ a = Mode.Constant ∧ b = Mode.Constant := by
  cases a <;> cases b <;> decide

theorem literalsToFields_mode (ls : List Literal) (fs : List Nat) (m : Mode)
    (h : literalsToFields ls = some (fs, m)) :
    (m = Mode.Private ↔ ∃ l ∈ ls, l.mode = Mode.Private) ∧
    (m = Mode.Public ↔
      ((∃ l ∈ ls, l.mode = Mode.Public) ∧ ∀ l ∈ ls, l.mode ≠ Mode.Private)) ∧
    (m = Mode.Constant ↔ ∀ l ∈ ls, l.mode = Mode.Constant) := by
  induction ls generalizing fs m with
  | nil =>
    simp only [literalsToFields, Option.some.injEq, Prod.mk.injEq] at h
    obtain ⟨h1, h2⟩ := h
    subst h2
    simp
  | cons l ls ih =>
    simp only [literalsToFields] at h
    split at h
    next fs1 fs2 m2 hlf hrest =>
      injection h with h1
      injection h1 with hfs hm
      obtain ⟨ih1, ih2, ih3⟩ := ih fs2 m2 hrest
      subst hm
      refine ⟨?_, ?_, ?_⟩
      · rw [mode_join_private, ih1]
        simp [List.mem_cons]
      · rw [mode_join_public]
        constructor
        · rintro ⟨hor, hlp, hm2p⟩
          have hrestp : ∀ x ∈ ls, x.mode ≠ Mode.Private := by
            intro x hx hcon
            exact hm2p (ih1.mpr ⟨x, hx, hcon⟩)
          refine ⟨?_, ?_⟩
          · rcases hor with hl | hm2
            · exact ⟨l, List.mem_cons_self l ls, hl⟩
            · obtain ⟨⟨x, hx, hxp⟩, -⟩ := ih2.mp hm2
              exact ⟨x, List.mem_cons_of_mem l hx, hxp⟩
          · intro x hx
            rcases List.mem_cons.mp hx with rfl | hx2
            · exact hlp
            · exact hrestp x hx2
        · rintro ⟨⟨x, hx, hxp⟩, hall⟩
          have hlp : l.mode ≠ Mode.Private := hall l (List.mem_cons_self l ls)
          have hrestp : ∀ y ∈ ls, y.mode ≠ Mode.Private := fun y hy =>
            hall y (List.mem_cons_of_mem l hy)
          have hm2p : m2 ≠ Mode.Private := by
            intro hcon
            obtain ⟨y, hy, hyp⟩ := ih1.mp hcon
            exact hrestp y hy hyp
          rcases List.mem_cons.mp hx with rfl | hx2
          · exact ⟨Or.inl hxp, hlp, hm2p⟩
          · exact ⟨Or.inr (ih2.mpr ⟨⟨x, hx2, hxp⟩, hrestp⟩), hlp, hm2p⟩
      · rw [mode_join_constant, ih3]
        simp [List.forall_mem_cons]
    next hne =>
      exact absurd h (by simp)

/-- Evaluation never returns `ok` once it has halted. -/
theorem halt_not_ok (e : EvalResult) (msg : String) (out : Registers)
    (h : e = EvalResult.halt msg) : e ≠ EvalResult.ok out := by
  intro hcon
  rw [h] at hcon
  exact EvalResult.noConfusion hcon

/-- If the loaded value does not flatten, evaluation halts with the
variant diagnostic. -/
theorem evaluate_flatten_none (self : HashPsd8) (regs : Registers) (v : Value)
    (hsrc : regs self.operation.first = some v)
    (hv : Value.toFields v = none) :
    self.evaluate regs
      = EvalResult.halt ("Invalid '" ++ HashPsd8.opcode ++ "' instruction") := by
  unfold HashPsd8.evaluate
  simp only [hsrc, hv]

/-! ## Claim theorems: parsing and byte codec -/

/-- C7: the textual parser of this instruction accepts exactly the
grammar `<opcode> <src-register> into <dst-register> ;` — with the
opcode token, the literal `into` and the terminating `;` mandatory — and
on success returns the constructed instruction plus the remaining
unparsed input; a grammar mismatch is the recoverable result `none`
surfaced to the caller, never a halt.  (The instruction-level dispatch
parser wrapping `HashPsd8.parse` is modelled from the spec.) -/
theorem claim_C7_parse_grammar (cs rest : List Char) (inst : Instruction) :
    Instruction.parse cs = some (inst, rest) ↔
      ∃ sds dds, RegToken sds ∧ RegToken dds ∧
        cs = (HashPsd8.opcode ++ " ").data
            ++ (('r' :: sds) ++ (" into r".data ++ (dds ++ (';' :: rest)))) ∧
        inst = Instruction.hashPsd8 ⟨⟨digitsToNat sds, digitsToNat dds⟩, Poseidon8.new⟩ := by
  constructor
  · intro h
    simp only [Instruction.parse] at h
    split at h
    · exact absurd h (by simp)
    next cs1 h1 =>
    split at h
    · exact absurd h (by simp)
    next hp cs2 h2 =>
    split at h
    next cs3 hsemi =>
      injection h with h4
      injection h4 with h5 h6
      rw [h6] at h2
      simp only [HashPsd8.parse, Option.map_eq_some'] at h2
      obtain ⟨⟨op, cs4⟩, hu, heq⟩ := h2
      injection heq with e1 e2
      have e3 : cs4 = ';' :: rest := e2
      have e4 : (⟨op, Poseidon8.new⟩ : HashPsd8) = hp := e1
      rw [e3] at hu
      obtain ⟨sds, dds, hsr, hdr, hcs1, hop, _⟩ :=
        (unaryOperation_parse_iff cs1 (';' :: rest) op).mp hu
      refine ⟨sds, dds, hsr, hdr, ?_, ?_⟩
      · rw [(parseToken_iff _ _ _).mp h1, hcs1]
      · rw [← h5, ← e4, hop]
    next hnot =>
      exact absurd h (by simp)
  · rintro ⟨sds, dds, hsr, hdr, rfl, rfl⟩
    have h1 : parseToken (HashPsd8.opcode ++ " ").data
        ((HashPsd8.opcode ++ " ").data
          ++ (('r' :: sds) ++ (" into r".data ++ (dds ++ (';' :: rest)))))
        = some (('r' :: sds) ++ (" into r".data ++ (dds ++ (';' :: rest)))) :=
      (parseToken_iff _ _ _).mpr rfl
    have hu : UnaryOperation.parse (('r' :: sds) ++ (" into r".data ++ (dds ++ (';' :: rest))))
        = some (⟨digitsToNat sds, digitsToNat dds⟩, ';' :: rest) := by
      refine (unaryOperation_parse_iff _ _ _).mpr ⟨sds, dds, hsr, hdr, rfl, rfl, ?_⟩
      intro c hc
      injection hc with hc
      subst hc
      decide
    have h2 : HashPsd8.parse (('r' :: sds) ++ (" into r".data ++ (dds ++ (';' :: rest))))
        = some (⟨⟨digitsToNat sds, digitsToNat dds⟩, Poseidon8.new⟩, ';' :: rest) := by
      simp only [HashPsd8.parse, hu, Option.map_some']
    simp only [Instruction.parse, h1, h2]

/-- C6: byte decoding is the exact inverse of byte encoding — decoding
the encoding of any instruction (with 64-bit register ids, as in the
source) reproduces the instruction and leaves the trailing bytes, and
encoding the decoded instruction of any well-formed byte stream
reproduces the original bytes.  (`read_le` is from the source; the
unary-operation codec it delegates to is modelled from the spec.) -/
theorem claim_C6_byte_roundtrip (self : HashPsd8) (bs rest rest2 : List Nat)
    (self2 : HashPsd8)
    (hfirst : self.operation.first < 2 ^ 64)
    (hdest : self.operation.destination < 2 ^ 64)
    (hbytes : ∀ b ∈ bs, b < 256) :
    HashPsd8.readLe (self.writeLe ++ rest) = some (self, rest) ∧
      (HashPsd8.readLe bs = some (self2, rest2) → self2.writeLe ++ rest2 = bs) := by
  have h64 : (256 : Nat) ^ 8 = 2 ^ 64 := by norm_num
  constructor
  · have hA : readBytes 8 (natToBytesLE 8 self.operation.first
        ++ (natToBytesLE 8 self.operation.destination ++ rest))
        = some (natToBytesLE 8 self.operation.first,
            natToBytesLE 8 self.operation.destination ++ rest) := by
      rw [← natToBytesLE_length 8 self.operation.first]
      exact readBytes_append _ _
    have hB : readBytes 8 (natToBytesLE 8 self.operation.destination ++ rest)
        = some (natToBytesLE 8 self.operation.destination, rest) := by
      rw [← natToBytesLE_length 8 self.operation.destination]
      exact readBytes_append _ _
    have hvA : bytesToNatLE (natToBytesLE 8 self.operation.first)
        = self.operation.first := by
      rw [bytesToNatLE_natToBytesLE, h64, Nat.mod_eq_of_lt hfirst]
    have hvB : bytesToNatLE (natToBytesLE 8 self.operation.destination)
        = self.operation.destination := by
      rw [bytesToNatLE_natToBytesLE, h64, Nat.mod_eq_of_lt hdest]
    have hshape : self.writeLe ++ rest
        = natToBytesLE 8 self.operation.first
          ++ (natToBytesLE 8 self.operation.destination ++ rest) := by
      simp [HashPsd8.writeLe, UnaryOperation.writeLe]
    rw [hshape]
    simp only [HashPsd8.readLe, UnaryOperation.readLe, hA, hB, hvA, hvB,
      Option.map_some']
  · intro hr
    simp only [HashPsd8.readLe, Option.map_eq_some'] at hr
    obtain ⟨⟨op, rest1⟩, hu, heq⟩ := hr
    injection heq with e1 e2
    simp only [UnaryOperation.readLe] at hu
    split at hu
    · exact absurd hu (by simp)
    next sb bs1 hsb =>
    split at hu
    · exact absurd hu (by simp)
    next db bs2 hdb =>
    injection hu with hu1
    injection hu1 with hop hrest
    obtain ⟨hbs, hsl⟩ := readBytes_spec 8 bs sb bs1 hsb
    obtain ⟨hbs1, hdl⟩ := readBytes_spec 8 bs1 db bs2 hdb
    have hsb256 : ∀ b ∈ sb, b < 256 := by
      intro b hb
      exact hbytes b (hbs ▸ List.mem_append_left _ hb)
    have hdb256 : ∀ b ∈ db, b < 256 := by
      intro b hb
      refine hbytes b (hbs ▸ List.mem_append_right _ (hbs1 ▸ List.mem_append_left _ hb))
    have hws : natToBytesLE 8 (bytesToNatLE sb) = sb := by
      rw [← hsl]
      exact natToBytesLE_bytesToNatLE sb hsb256
    have hwd : natToBytesLE 8 (bytesToNatLE db) = db := by
      rw [← hdl]
      exact natToBytesLE_bytesToNatLE db hdb256
    have hwrite : self2.writeLe = sb ++ db := by
      rw [← e1]
      show UnaryOperation.writeLe op = sb ++ db
      rw [← hop]
      show natToBytesLE 8 (bytesToNatLE sb) ++ natToBytesLE 8 (bytesToNatLE db)
          = sb ++ db
      rw [hws, hwd]
    rw [hwrite, ← e2, ← hrest, hbs, hbs1, List.append_assoc]

/-- C10: the parse function of `HashPsd8` itself does not consume the
opcode token — it is exactly the `map` of the shared unary-operation
parser, so an operand-only string such as `r0 into r1` parses while an
opcode-prefixed string does not — and both parse and byte decode always
construct the hash functor fresh via `Poseidon8.new`, so the constructed
instruction depends only on the parsed or decoded register
identifiers. -/
theorem claim_C10_parse_no_opcode :
    (∀ cs, HashPsd8.parse cs
        = (UnaryOperation.parse cs).map (fun p => (⟨p.1, Poseidon8.new⟩, p.2))) ∧
    HashPsd8.parse "r0 into r1".data = some (⟨⟨0, 1⟩, Poseidon8.new⟩, []) ∧
    HashPsd8.parse "hash.psd8 r0 into r1;".data = none ∧
    (∀ bs, HashPsd8.readLe bs
        = (UnaryOperation.readLe bs).map (fun p => (⟨p.1, Poseidon8.new⟩, p.2))) ∧
    (∀ cs i rest1, HashPsd8.parse cs = some (i, rest1) → i.hasher = Poseidon8.new) ∧
    (∀ bs i rest1, HashPsd8.readLe bs = some (i, rest1) → i.hasher = Poseidon8.new) := by
  refine ⟨fun _ => rfl, by decide, by decide, fun _ => rfl, ?_, ?_⟩
  · intro _ i _ _
    rfl
  · intro _ i _ _
    rfl

/-- Witness for C10 at concrete inputs. -/
theorem claim_C10_witness :
    HashPsd8.parse "r0 into r1".data = some (⟨⟨0, 1⟩, Poseidon8.new⟩, []) ∧
    (⟨⟨0, 1⟩, Poseidon8.new⟩ : HashPsd8).hasher = Poseidon8.new :=
  ⟨claim_C10_parse_no_opcode.2.1,
   claim_C10_parse_no_opcode.2.2.2.2.1 "r0 into r1".data ⟨⟨0, 1⟩, Poseidon8.new⟩ []
     (by decide)⟩

/-- Witness for C6 at a concrete instruction and byte stream. -/
theorem claim_C6_witness :
    HashPsd8.readLe (HashPsd8.writeLe inst01 ++ [7]) = some (inst01, [7]) ∧
    HashPsd8.writeLe inst01 ++ [7] = HashPsd8.writeLe inst01 ++ [7] :=
  ⟨(claim_C6_byte_roundtrip inst01 (HashPsd8.writeLe inst01 ++ [7]) [7] [7] inst01
      (by decide) (by decide) (by decide)).1,
   (claim_C6_byte_roundtrip inst01 (HashPsd8.writeLe inst01 ++ [7]) [7] [7] inst01
      (by decide) (by decide) (by decide)).2 (by decide)⟩

example : HashPsd8.parse "r0 into r1".data = some (inst01, []) := by decide

example : HashPsd8.readLe (HashPsd8.writeLe inst01 ++ [7, 9])
    = some (inst01, [7, 9]) := by decide

/-! ## Claim theorems: evaluation -/

/-- The scalar kinds the type-gating policy rejects (as established by
the source tests `bool_halts`, `address_halts`, `group_halts`). -/
def gatedKind : LiteralValue → Bool
  | LiteralValue.boolean _ => true
  | LiteralValue.address _ => true
  | LiteralValue.group _ => true
  | _ => false

/-- C1: evaluating on a boolean, address or group-element literal used
directly as the source value halts with the variant diagnostic (the
source tests assert the text `Invalid 'hash.psd8' instruction`) and
never writes a digest to the destination register. -/
theorem claim_C1_type_gating (self : HashPsd8) (regs : Registers) (l : Literal)
    (hsrc : regs self.operation.first = some (Value.literal l))
    (hg : gatedKind l.value = true) :
    self.evaluate regs
      = EvalResult.halt ("Invalid '" ++ HashPsd8.opcode ++ "' instruction") ∧
    ∀ out, self.evaluate regs ≠ EvalResult.ok out := by
  have hv : Value.toFields (Value.literal l) = none := by
    rcases l with ⟨v, m⟩
    cases v <;> simp [gatedKind] at hg <;> rfl
  have he := evaluate_flatten_none self regs (Value.literal l) hsrc hv
  exact ⟨he, fun out => halt_not_ok _ _ out he⟩

/-- Witness for C1: hashing the boolean literal `true` halts. -/
theorem claim_C1_witness :
    inst01.evaluate (singleRegs (Value.literal ⟨LiteralValue.boolean true, Mode.Constant⟩))
      = EvalResult.halt ("Invalid '" ++ HashPsd8.opcode ++ "' instruction") :=
  (claim_C1_type_gating inst01
    (singleRegs (Value.literal ⟨LiteralValue.boolean true, Mode.Constant⟩))
    ⟨LiteralValue.boolean true, Mode.Constant⟩ rfl rfl).1

/-- C2: for any composite whose evaluation succeeds, the digest written
to the destination register is tagged with the visibility join of the
leaves — Private if any leaf is Private; otherwise not Private, namely
Public if any leaf is Public and Constant if none is. -/
theorem claim_C2_visibility_join (self : HashPsd8) (regs out : Registers)
    (name : String) (ls : List Literal)
    (hsrc : regs self.operation.first = some (Value.composite name ls))
    (hok : self.evaluate regs = EvalResult.ok out) :
    ∃ d m, out self.operation.destination
        = some (Value.literal ⟨LiteralValue.field d, m⟩) ∧
      ((∃ l ∈ ls, l.mode = Mode.Private) → m = Mode.Private) ∧
      ((∀ l ∈ ls, l.mode ≠ Mode.Private) → m ≠ Mode.Private ∧
        ((∃ l ∈ ls, l.mode = Mode.Public) → m = Mode.Public) ∧
        ((∀ l ∈ ls, l.mode ≠ Mode.Public) → m = Mode.Constant)) := by
  unfold HashPsd8.evaluate at hok
  split at hok
  · exact absurd hok (by simp)
  next v hv =>
  have hveq : v = Value.composite name ls := by
    have := hv.symm.trans hsrc
    injection this
  subst hveq
  split at hok
  · exact absurd hok (by simp)
  next fields mode htf =>
  have hlf : literalsToFields ls = some (fields, mode) := htf
  split at hok
  · exact absurd hok (by simp)
  next hnd =>
  injection hok with hfun
  obtain ⟨ih1, ih2, ih3⟩ := literalsToFields_mode ls fields mode hlf
  refine ⟨self.hasher.hash fields, mode, ?_, ?_, ?_⟩
  · rw [← hfun]
    simp
  · exact fun hex => ih1.mpr hex
  · intro hnp
    refine ⟨?_, ?_, ?_⟩
    · intro hcon
      obtain ⟨x, hx, hxp⟩ := ih1.mp hcon
      exact hnp x hx hxp
    · exact fun hex => ih2.mpr ⟨hex, hnp⟩
    · intro hnpub
      refine ih3.mpr ?_
      intro x hx
      cases hxm : x.mode with
      | Constant => rfl
      | Public => exact absurd hxm (hnpub x hx)
      | Private => exact absurd hxm (hnp x hx)

/-- The register file of the source test `test_composite`: `r0` holds
the composite of `1field.public` and `2field.private`. -/
def compositeRegs : Registers :=
  singleRegs (Value.composite "message"
    [⟨LiteralValue.field 1, Mode.Public⟩, ⟨LiteralValue.field 2, Mode.Private⟩])

/-- The register file after evaluating `hash.psd8 r0 into r1` on
`compositeRegs`. -/
def compositeOut : Registers := fun r =>
  if r = inst01.operation.destination then
    some (Value.literal ⟨LiteralValue.field
      (inst01.hasher.hash [1, 2]), Mode.Private⟩)
  else compositeRegs r

/-- Witness for C2 at the composite of the source test. -/
theorem claim_C2_witness :
    ∃ d m, compositeOut inst01.operation.destination
        = some (Value.literal ⟨LiteralValue.field d, m⟩) ∧
      ((∃ l ∈ [(⟨LiteralValue.field 1, Mode.Public⟩ : Literal),
               ⟨LiteralValue.field 2, Mode.Private⟩], l.mode = Mode.Private) →
        m = Mode.Private) ∧
      ((∀ l ∈ [(⟨LiteralValue.field 1, Mode.Public⟩ : Literal),
               ⟨LiteralValue.field 2, Mode.Private⟩], l.mode ≠ Mode.Private) →
        m ≠ Mode.Private ∧
        ((∃ l ∈ [(⟨LiteralValue.field 1, Mode.Public⟩ : Literal),
                 ⟨LiteralValue.field 2, Mode.Private⟩], l.mode = Mode.Public) →
          m = Mode.Public) ∧
        ((∀ l ∈ [(⟨LiteralValue.field 1, Mode.Public⟩ : Literal),
                 ⟨LiteralValue.field 2, Mode.Private⟩], l.mode ≠ Mode.Public) →
          m = Mode.Constant)) :=
  claim_C2_visibility_join inst01 compositeRegs compositeOut "message"
    [⟨LiteralValue.field 1, Mode.Public⟩, ⟨LiteralValue.field 2, Mode.Private⟩]
    rfl rfl

/-- C3: evaluating `hash.psd8` on the composite of `1field.public` and
`2field.private` writes exactly the digest
`2132636093982099992808836832692348220698310395516022520468979890154979376079field.private`
to the destination register (digest value as pinned by the spec for the
modelled Poseidon8 primitive). -/
theorem claim_C3_composite_digest :
    inst01.evaluateDigest compositeRegs
      = some (Value.literal ⟨LiteralValue.field
          2132636093982099992808836832692348220698310395516022520468979890154979376079,
          Mode.Private⟩) := by
  decide

/-- C4: hashing the field literal `1field` yields the digest
`3999071741215241790607111275574824668617854796802626587041088136954841194555field`
(in every mode), every integer-kind literal with numeric value 1 yields
the same digest, and indeed all such literals flatten to the same
canonical field encoding as `1field`. -/
theorem claim_C4_value_one_digest :
    (∀ m : Mode,
      inst01.evaluateDigest (singleRegs (Value.literal ⟨LiteralValue.field 1, m⟩))
        = some (Value.literal ⟨LiteralValue.field
            3999071741215241790607111275574824668617854796802626587041088136954841194555,
            m⟩)) ∧
    (∀ k : IntKind, ∀ m : Mode,
      inst01.evaluateDigest (singleRegs (Value.literal ⟨LiteralValue.integer k 1, m⟩))
        = some (Value.literal ⟨LiteralValue.field
            3999071741215241790607111275574824668617854796802626587041088136954841194555,
            m⟩)) ∧
    (∀ k : IntKind, literalToFields (LiteralValue.integer k 1)
        = literalToFields (LiteralValue.field 1)) := by
  refine ⟨?_, ?_, ?_⟩
  · intro m
    cases m <;> decide
  · intro k m
    cases k <;> cases m <;> decide
  · intro k
    cases k <;> decide

/-- C5: hashing the string literal `"aaaaaaaa"` yields the digest
`4020837770720319542691472472080405581209506316726251354702740114046129734437field`
(in every mode). -/
theorem claim_C5_string_digest :
    ∀ m : Mode,
      inst01.evaluateDigest (singleRegs (Value.literal
          ⟨LiteralValue.string "aaaaaaaa", m⟩))
        = some (Value.literal ⟨LiteralValue.field
            4020837770720319542691472472080405581209506316726251354702740114046129734437,
            m⟩) := by
  intro m
  cases m <;> decide

/-- C8: evaluating against a source register that was never assigned a
value halts (and never returns normally). -/
theorem claim_C8_undefined_source_halts (self : HashPsd8) (regs : Registers)
    (h : regs self.operation.first = none) :
    (∃ msg, self.evaluate regs = EvalResult.halt msg) ∧
    ∀ out, self.evaluate regs ≠ EvalResult.ok out := by
  have he : self.evaluate regs
      = EvalResult.halt ("Failed to load register r" ++ toString self.operation.first) := by
    unfold HashPsd8.evaluate
    simp only [h]
  exact ⟨⟨_, he⟩, fun out => halt_not_ok _ _ out he⟩

/-- Witness for C8 on the empty register file. -/
theorem claim_C8_witness :
    (∃ msg, inst01.evaluate (fun _ => none) = EvalResult.halt msg) ∧
    inst01.evaluate (fun _ => none) ≠ EvalResult.ok (fun _ => none) :=
  ⟨(claim_C8_undefined_source_halts inst01 (fun _ => none) rfl).1,
   (claim_C8_undefined_source_halts inst01 (fun _ => none) rfl).2 (fun _ => none)⟩

/-- C9: a successful evaluation's only effect is writing the digest to
the destination register — it requires the destination to have been
undefined, leaves every other register exactly as it was, and writes a
field-literal digest to the destination; and whenever the destination
register is already defined, evaluation never returns normally. -/
theorem claim_C9_frame (self : HashPsd8) (regs out : Registers) :
    (self.evaluate regs = EvalResult.ok out →
      regs self.operation.destination = none ∧
      (∀ r, r ≠ self.operation.destination → out r = regs r) ∧
      ∃ d m, out self.operation.destination
        = some (Value.literal ⟨LiteralValue.field d, m⟩)) ∧
    ((regs self.operation.destination).isSome = true →
      ∀ out2, self.evaluate regs ≠ EvalResult.ok out2) := by
  constructor
  · intro h
    unfold HashPsd8.evaluate at h
    split at h
    · exact absurd h (by simp)
    next v hv =>
    split at h
    · exact absurd h (by simp)
    next fields mode htf =>
    split at h
    · exact absurd h (by simp)
    next hnd =>
    injection h with hfun
    refine ⟨hnd, ?_, self.hasher.hash fields, mode, ?_⟩
    · intro r hr
      rw [← hfun]
      simp [hr]
    · rw [← hfun]
      simp
  · intro hdef out2 hcon
    unfold HashPsd8.evaluate at hcon
    split at hcon
    · exact absurd hcon (by simp)
    next v hv =>
    split at hcon
    · exact absurd hcon (by simp)
    next fields mode htf =>
    split at hcon
    · exact absurd hcon (by simp)
    next hnd =>
    rw [hnd] at hdef
    exact Bool.noConfusion hdef

/-- Witness for C9 at the composite evaluation of the source test: the
frame part at a register other than the destination, and the
already-defined part on a register file whose destination is taken. -/
theorem claim_C9_witness :
    (compositeRegs 1 = none ∧ compositeOut 0 = compositeRegs 0) ∧
    inst01.evaluate compositeOut ≠ EvalResult.ok compositeOut :=
  ⟨⟨((claim_C9_frame inst01 compositeRegs compositeOut).1 rfl).1,
    ((claim_C9_frame inst01 compositeRegs compositeOut).1 rfl).2.1 0 (by decide)⟩,
   (claim_C9_frame inst01 compositeOut compositeOut).2 (by decide) compositeOut⟩

end Psd8
